import Mathlib

/-!
# Verification of matchms core components

This file embeds, as Lean definitions, the components of the matchms
repository that the verified claims concern:

* the stacked sparse score matrix (`StackedSparseScores`) — the class itself
  is not part of the provided sources (only its test suite
  `tests/test_stacked_sparse_scores.py` is), so the data structure and its
  operations are modelled from the specification document, faithful to its
  wording (establish/project/shrink, canonical ordering, zero-as-absence,
  error kinds);
* `BaseSimilarity.matrix` from `matchms/similarity/BaseSimilarity.py`;
* `correct_charge` from `matchms/filtering/correct_charge.py`.

Score values are modelled as rationals (the Python code uses numpy floats;
all scenarios exercised here involve exactly representable values).
-/

namespace Matchms

/-- Modelled from the spec: the error kinds of §7 of the specification for
the stacked sparse score matrix (the class source is not in the provided
tree). Errors propagate as explicit failures via `Except`. -/
inductive SSSError where
  | shapeMismatch
  | duplicateLayer
  | unknownLayer
  | indexOutOfBounds
  | invalidRange
deriving DecidableEq, Repr

/-- Modelled from the spec: the `StackedSparseScores` data model of §3 —
fixed grid dimensions `n_row`, `n_col`, the shared coordinate index
`row`/`col`, the ordered layer names `score_names`, and the per-layer value
sequences `layers` (stored as an association list preserving insertion
order, mirroring the ordered dict of layer values). -/
structure SSS where
  n_row : Nat
  n_col : Nat
  row : List Nat
  col : List Nat
  score_names : List String
  layers : List (String × List ℚ)
deriving DecidableEq, Repr

/-- Modelled from the spec: a `StackedSparseScores` is created empty
(`nnz = 0`, no layers) bound to its fixed grid dimensions. -/
def SSS.empty (r c : Nat) : SSS :=
  ⟨r, c, [], [], [], []⟩

def SSS.nnz (m : SSS) : Nat := m.row.length

/-- Shape reported as `(n_row, n_col, len(score_names))`. -/
def SSS.shape (m : SSS) : Nat × Nat × Nat :=
  (m.n_row, m.n_col, m.score_names.length)

/-- The value sequence of the layer called `name` (empty when absent). -/
def SSS.getLayer (m : SSS) (name : String) : List ℚ :=
  match m.layers.find? (fun nv => nv.1 == name) with
  | some nv => nv.2
  | none => []

/-- The value sequence of the layer at position `k` of `score_names`. -/
def SSS.layerByPos (m : SSS) (k : Nat) : List ℚ :=
  (m.layers.getD k ("", [])).2

/-- Strict canonical order on coordinates: row ascending, then col
ascending within each row. -/
def coordLtb (p q : Nat × Nat) : Bool :=
  p.1 < q.1 || (p.1 == q.1 && p.2 < q.2)

/-- The coordinate key of a `(row, col, value)` entry. -/
def ekey (e : Nat × Nat × ℚ) : Nat × Nat := (e.1, e.2.1)

/-- The value of a `(row, col, value)` entry. -/
def entryVal (e : Nat × Nat × ℚ) : ℚ := e.2.2

/-- Coordinate pair lists strictly sorted in canonical order (which also
forces all pairs to be distinct). -/
def sortedPairs : List (Nat × Nat) → Bool
  | [] => true
  | p :: rest => rest.all (fun q => coordLtb p q) && sortedPairs rest

/-- Entry lists strictly sorted in canonical coordinate order. -/
def sortedEntries (l : List (Nat × Nat × ℚ)) : Bool :=
  sortedPairs (l.map ekey)

/-- Modelled from the spec: one step of the explicit sort/dedup that
canonicalizes coordinate entries (§9: "Canonical coordinate ordering should
be implemented with an explicit sort/dedup step"); inserts an entry into an
already sorted list, dropping it when its coordinate is already present. -/
def insertEntry (e : Nat × Nat × ℚ) : List (Nat × Nat × ℚ) → List (Nat × Nat × ℚ)
  | [] => [e]
  | f :: rest =>
    if coordLtb (ekey e) (ekey f) then e :: f :: rest
    else if ekey e == ekey f then f :: rest
    else f :: insertEntry e rest

/-- Modelled from the spec: canonicalized, deduplicated, sorted form of a
coordinate entry list (insertion sort keyed on the coordinate pair). -/
def canonicalize (l : List (Nat × Nat × ℚ)) : List (Nat × Nat × ℚ) :=
  l.foldr insertEntry []

/-- Nonzero entries of one row of a dense input, with their column indices
starting at `j` (a value of exactly zero denotes absence). -/
def rowEntries (i : Nat) : List ℚ → Nat → List (Nat × Nat × ℚ)
  | [], _ => []
  | v :: rest, j =>
    (if v == 0 then [] else [(i, j, v)]) ++ rowEntries i rest (j + 1)

/-- Nonzero entries of the dense rows starting at row index `i`,
in row-major order. -/
def denseEntriesAux : List (List ℚ) → Nat → List (Nat × Nat × ℚ)
  | [], _ => []
  | r :: rest, i => rowEntries i r 0 ++ denseEntriesAux rest (i + 1)

/-- Modelled from the spec: `add_dense` "extracts nonzero entries as
(coord, value) pairs" from the full dense array, in row-major order. -/
def denseEntries (values : List (List ℚ)) : List (Nat × Nat × ℚ) :=
  denseEntriesAux values 0

/-- Number of nonzero entries of a dense input. -/
def countNonzero (values : List (List ℚ)) : Nat :=
  (values.map (fun r => (r.filter (fun v => !(v == 0))).length)).sum

/-- A dense input has exactly the grid dimensions of the matrix. -/
def denseShapeOk (m : SSS) (values : List (List ℚ)) : Bool :=
  values.length == m.n_row && values.all (fun r => r.length == m.n_col)

/-- Modelled from the spec: `establish(coords)` — sets `row`, `col` to the
canonicalized entry list's coordinates and stores the entry values as the
new layer, appending `name` to `score_names`. -/
def SSS.establish (m : SSS) (cEntries : List (Nat × Nat × ℚ)) (name : String) : SSS :=
  { m with
    row := cEntries.map (fun e => e.1),
    col := cEntries.map (fun e => e.2.1),
    score_names := m.score_names ++ [name],
    layers := m.layers ++ [(name, cEntries.map entryVal)] }

/-- Value of a dense input at a coordinate (out-of-range defaults are never
reached on shape-checked inputs with in-bound coordinates). -/
def denseAt (values : List (List ℚ)) (i j : Nat) : ℚ :=
  (values.getD i []).getD j 0

/-- Modelled from the spec: `project` for a dense input — for each existing
coordinate, the dense grid's value there (which may legitimately be zero). -/
def projectDense (m : SSS) (values : List (List ℚ)) : List ℚ :=
  (m.row.zip m.col).map (fun p => denseAt values p.1 p.2)

/-- Lookup of a coordinate in an explicit entry list; zero (the layer's
neutral/background value) when absent. -/
def lookupCoo (entries : List (Nat × Nat × ℚ)) (i j : Nat) : ℚ :=
  match entries.find? (fun e => e.1 == i && e.2.1 == j) with
  | some e => e.2.2
  | none => 0

/-- Modelled from the spec: `project` for a sparse input — for each
existing coordinate, the candidate's value if present, zero if absent;
no new coordinates are introduced. -/
def projectCoo (m : SSS) (entries : List (Nat × Nat × ℚ)) : List ℚ :=
  (m.row.zip m.col).map (fun p => lookupCoo entries p.1 p.2)

/-- Append a projected layer under a fresh name. -/
def SSS.addProjected (m : SSS) (name : String) (vals : List ℚ) : SSS :=
  { m with
    score_names := m.score_names ++ [name],
    layers := m.layers ++ [(name, vals)] }

/-- Modelled from the spec: `add_dense_matrix` (§4.2 `add_dense`) —
validates the layer name and the dense shape, then either establishes the
coordinate index from the nonzero entries (first layer) or projects the
dense grid's values onto the existing coordinates. -/
def SSS.add_dense_matrix (m : SSS) (values : List (List ℚ)) (name : String) :
    Except SSSError SSS :=
  if m.score_names.contains name then .error .duplicateLayer
  else if !(denseShapeOk m values) then .error .shapeMismatch
  else if m.score_names.isEmpty then
    .ok (m.establish (canonicalize (denseEntries values)) name)
  else
    .ok (m.addProjected name (projectDense m values))

/-- Modelled from the spec: `add_coo_matrix` (§4.2 `add_sparse`) —
validates the layer name, then either establishes the coordinate index from
the given (zero-filtered, canonicalized) entries or projects them onto the
existing coordinates. -/
def SSS.add_coo_matrix (m : SSS) (entries : List (Nat × Nat × ℚ)) (name : String) :
    Except SSSError SSS :=
  if m.score_names.contains name then .error .duplicateLayer
  else if m.score_names.isEmpty then
    .ok (m.establish (canonicalize (entries.filter (fun e => !(entryVal e == 0)))) name)
  else
    .ok (m.addProjected name (projectCoo m entries))

/-- Modelled from the spec: the `keep_mask` predicate of `filter_by_range`;
bounds are optional/independent (an omitted bound is unbounded on that
side). The spec prose of §4.3 writes the comparison as non-strict
(`low ≤ v ≤ high`), but its own concrete scenario 3 and the in-repo test
suite (`test_sss_matrix_filter_by_range`: bounds 70/85 keep exactly the
values 71..84, and the stacked test keeps only the 0.9-entries for
`low=0.5`) fix the comparisons as strict, so the model keeps
`low < v < high`. -/
def inRange (low high : Option ℚ) (v : ℚ) : Bool :=
  (match low with
   | none => true
   | some l => decide (l < v)) &&
  (match high with
   | none => true
   | some h => decide (v < h))

/-- Keep the elements of `xs` at positions where `mask` is true, preserving
relative order of survivors. -/
def applyMask (mask : List Bool) (xs : List α) : List α :=
  ((mask.zip xs).filter (fun bx => bx.1)).map (fun bx => bx.2)

/-- Modelled from the spec: `shrink(keep_mask)` — removes coordinates and
every layer's aligned values at positions not in the keep mask, cascading
to every layer in lock-step. -/
def SSS.shrinkBy (m : SSS) (mask : List Bool) : SSS :=
  { m with
    row := applyMask mask m.row,
    col := applyMask mask m.col,
    layers := m.layers.map (fun nv => (nv.1, applyMask mask nv.2)) }

/-- The bounds are invalid exactly when both are given and `low > high`. -/
def invalidRangeB (low high : Option ℚ) : Bool :=
  match low, high with
  | some l, some h => decide (h < l)
  | _, _ => false

/-- `filter_by_range` applied to a resolved layer name. -/
def SSS.filterWithName (m : SSS) (name : String) (low high : Option ℚ) :
    Except SSSError SSS :=
  if m.score_names.contains name then
    if invalidRangeB low high then .error .invalidRange
    else .ok (m.shrinkBy ((m.getLayer name).map (inRange low high)))
  else .error .unknownLayer

/-- Modelled from the spec: `filter_by_range(name = default, low, high)` —
default `name` is the first-added layer; fails with `UnknownLayerError`
when the layer is absent and with `InvalidRangeError` when `low > high`;
otherwise shrinks by the keep mask over the named layer's values. -/
def SSS.filter_by_range (m : SSS) (name? : Option String) (low high : Option ℚ) :
    Except SSSError SSS :=
  match name?.orElse (fun _ => m.score_names.head?) with
  | none => .error .unknownLayer
  | some name => m.filterWithName name low high

/-- Negative indices address from the end of the grid dimension. -/
def normIdx (n : Nat) (i : Int) : Int :=
  if i < 0 then (n : Int) + i else i

/-- Modelled from the spec: scalar lookup `(i, j, layer-position)` —
normalizes negative indices, rejects out-of-range coordinates with
`IndexOutOfBoundsError`, and returns the selected layer's value at `(i, j)`
when the coordinate is in the current pattern, the zero/neutral value
otherwise. Read-only: the matrix is not changed. -/
def SSS.scalarGet (m : SSS) (i j : Int) (k : Nat) : Except SSSError ℚ :=
  let a := normIdx m.n_row i
  let b := normIdx m.n_col j
  if 0 ≤ a ∧ a < (m.n_row : Int) ∧ 0 ≤ b ∧ b < (m.n_col : Int) then
    match ((m.row.zip m.col).zip (m.layerByPos k)).find?
        (fun pv => ((pv.1.1 : Int) == a) && ((pv.1.2 : Int) == b)) with
    | some pv => .ok pv.2
    | none => .ok 0
  else .error .indexOutOfBounds

/-- The structural invariants of §3: equal lengths of `row`, `col` and
every layer, layers aligned to `score_names`, and coordinate pairs in
strict canonical order (hence pairwise distinct). -/
def SSS.WF (m : SSS) : Prop :=
  m.col.length = m.row.length ∧
  (∀ nv ∈ m.layers, nv.2.length = m.row.length) ∧
  m.layers.map Prod.fst = m.score_names ∧
  sortedPairs (m.row.zip m.col) = true

instance (m : SSS) : Decidable m.WF := by
  unfold SSS.WF
  infer_instance

instance {ε α : Type _} [DecidableEq ε] [DecidableEq α] : DecidableEq (Except ε α) :=
  fun a b =>
    match a, b with
    | .error e, .error f => decidable_of_iff (e = f) (by simp)
    | .ok x, .ok y => decidable_of_iff (x = y) (by simp)
    | .error _, .ok _ => isFalse (by simp)
    | .ok _, .error _ => isFalse (by simp)

/-- The 12×10 row-major grid of values 0..119 used by the test suite
(`np.arange(0, 120).reshape(12, 10)`). -/
def grid12x10 : List (List ℚ) :=
  (List.range 12).map (fun i => (List.range 10).map (fun j => ((10 * i + j : ℕ) : ℚ)))

/-- The same grid with every value with `value % 2 == 1` or
`value % 4 == 0` zeroed out (test `test_sss_matrix_add_sparse`). -/
def grid12x10Even : List (List ℚ) :=
  (List.range 12).map (fun i => (List.range 10).map (fun j =>
    let v := 10 * i + j
    if v % 2 == 1 || v % 4 == 0 then 0 else ((v : ℕ) : ℚ)))

/-- The coordinate-list (COO) form of `grid12x10Even`, in the row-major
order that `scipy.sparse.coo_matrix` produces from a dense array. -/
def cooScenario : List (Nat × Nat × ℚ) := denseEntries grid12x10Even

/-! ## `correct_charge` (matchms/filtering/correct_charge.py)

A `Spectrum` is a metadata record; the filter reads the `ionmode` and
`charge` entries and writes `charge` on a clone of its input, so those two
metadata fields are the embedded state. -/

structure Spectrum where
  ionmode : Option String
  charge : Option Int
deriving DecidableEq, Repr

/-- `Spectrum.clone` returns an independent copy (value copy in the
embedding). -/
def Spectrum.clone (s : Spectrum) : Spectrum := s

/-- `spectrum.set("charge", c)`. -/
def Spectrum.set_charge (s : Spectrum) (c : Int) : Spectrum :=
  { s with charge := some c }

/-- `correct_charge` from matchms/filtering/correct_charge.py: `None`
passes through; otherwise, on a clone of the input, a missing charge
becomes 0, a zero charge is replaced by ±1 according to the ionmode, and a
charge whose sign conflicts with the ionmode is negated
(`numpy.sign` is `Int.sign`). -/
def correct_charge : Option Spectrum → Option Spectrum
  | none => none
  | some spectrum_in =>
    let spectrum := spectrum_in.clone
    let ionmode := spectrum.ionmode
    let charge1 : Int :=
      match spectrum.charge with
      | none => 0
      | some c =>
        if c = 0 ∧ ionmode = some "positive" then 1
        else if c = 0 ∧ ionmode = some "negative" then -1
        else c
    let charge2 : Int :=
      if Int.sign charge1 = 1 ∧ ionmode = some "negative" then charge1 * (-1)
      else if Int.sign charge1 = -1 ∧ ionmode = some "positive" then charge1 * (-1)
      else charge1
    some (spectrum.set_charge charge2)

/-! ## `BaseSimilarity.matrix` (matchms/similarity/BaseSimilarity.py)

The method allocates an uninitialized `n_rows × n_cols` numpy array and
fills it with a double loop; when `is_symmetric` and the class attribute
`is_commutative` are both set, the inner loop starts at the diagonal and
mirrors each value. The uninitialized array is modelled as an arbitrary
initial function `scores0`, writes as pointwise function update. -/

def writeCell {β : Type _} (m : Nat → Nat → β) (i j : Nat) (v : β) : Nat → Nat → β :=
  fun a b => if a = i ∧ b = j then v else m a b

/-- One inner-loop step of the symmetric branch:
`scores[i_ref][i_query] = pair(...); scores[i_query][i_ref] = scores[i_ref][i_query]`. -/
def symStep {β : Type _} (p : Nat → Nat → β) (i : Nat) (m : Nat → Nat → β) (j : Nat) :
    Nat → Nat → β :=
  let m1 := writeCell m i j (p i j)
  writeCell m1 j i (m1 i j)

/-- One inner-loop step of the naive branch:
`scores[i_ref][i_query] = pair(...)`. -/
def fullStep {β : Type _} (p : Nat → Nat → β) (i : Nat) (m : Nat → Nat → β) (j : Nat) :
    Nat → Nat → β :=
  writeCell m i j (p i j)

/-- The double loop of `BaseSimilarity.matrix` over the score array:
the outer loop enumerates `references[:n_rows]`; the inner loop is
`queries[i_ref:n_cols]` (start `i_ref`) in the symmetric-commutative case
and `queries[:n_cols]` otherwise. -/
def matrixFill {β : Type _} (p : Nat → Nat → β) (n_rows n_cols : Nat)
    (is_symmetric is_commutative : Bool) (scores0 : Nat → Nat → β) : Nat → Nat → β :=
  (List.range n_rows).foldl
    (fun m i =>
      if is_symmetric && is_commutative then
        (List.range' i (n_cols - i)).foldl (symStep p i) m
      else
        (List.range n_cols).foldl (fullStep p i) m) scores0

/-- `self.pair(references[i], queries[j])` as a function of the indices
(`dflt` is an out-of-range default that in-range accesses never reach). -/
def pairAt {α β : Type _} (pair : α → α → β) (dflt : α) (refs qs : List α)
    (i j : Nat) : β :=
  pair (refs.getD i dflt) (qs.getD j dflt)

/-- `BaseSimilarity.matrix(references, queries, is_symmetric)`: the filled
`n_rows × n_cols` score array, read out row by row. `pair` is the abstract
per-pair similarity, `is_commutative` the class attribute, and `scores0`
the contents of the uninitialized `numpy.empty` allocation. -/
def BaseSimilarity.matrix {α β : Type _} (pair : α → α → β) (is_commutative : Bool)
    (dflt : α) (references queries : List α) (is_symmetric : Bool)
    (scores0 : Nat → Nat → β) : List (List β) :=
  let n_rows := references.length
  let n_cols := queries.length
  let final := matrixFill (pairAt pair dflt references queries) n_rows n_cols
    is_symmetric is_commutative scores0
  (List.range n_rows).map (fun i => (List.range n_cols).map (fun j => final i j))

/-! ## Order lemmas for the canonical coordinate order -/

theorem coordLtb_trans {p q r : Nat × Nat} (h1 : coordLtb p q = true)
    (h2 : coordLtb q r = true) : coordLtb p r = true := by
  simp only [coordLtb, Bool.or_eq_true, Bool.and_eq_true, decide_eq_true_eq, beq_iff_eq] at *
  omega

theorem coordLtb_ne {p q : Nat × Nat} (h : coordLtb p q = true) : p ≠ q := by
  simp only [coordLtb, Bool.or_eq_true, Bool.and_eq_true, decide_eq_true_eq, beq_iff_eq] at h
  intro he
  rw [he] at h
  omega

theorem coordLtb_iff (a b c d : Nat) :
    coordLtb (a, b) (c, d) = true ↔ (a < c ∨ (a = c ∧ b < d)) := by
  simp [coordLtb]

theorem coordLtb_total {p q : Nat × Nat} (h1 : coordLtb p q = false) (h2 : p ≠ q) :
    coordLtb q p = true := by
  rcases p with ⟨p1, p2⟩
  rcases q with ⟨q1, q2⟩
  have h1' : ¬ (p1 < q1 ∨ (p1 = q1 ∧ p2 < q2)) := by
    rw [← coordLtb_iff, h1]
    simp
  have h2' : ¬ (p1 = q1 ∧ p2 = q2) := by
    intro hc
    exact h2 (by rw [hc.1, hc.2])
  rw [coordLtb_iff]
  omega

@[simp] theorem sortedPairs_nil : sortedPairs [] = true := rfl

theorem sortedPairs_cons (p : Nat × Nat) (l : List (Nat × Nat)) :
    sortedPairs (p :: l) = (l.all (fun q => coordLtb p q) && sortedPairs l) := rfl

theorem sortedPairs_iff_pairwise (l : List (Nat × Nat)) :
    sortedPairs l = true ↔ l.Pairwise (fun p q => coordLtb p q = true) := by
  induction l with
  | nil => exact ⟨fun _ => List.Pairwise.nil, fun _ => rfl⟩
  | cons p rest ih =>
    rw [sortedPairs_cons]
    simp [List.pairwise_cons, ih, List.all_eq_true, and_comm]

theorem sortedPairs_sublist {l1 l2 : List (Nat × Nat)} (h : l1.Sublist l2)
    (hs : sortedPairs l2 = true) : sortedPairs l1 = true := by
  rw [sortedPairs_iff_pairwise] at *
  exact List.Pairwise.sublist h hs

theorem sortedPairs_pairwise_ne {l : List (Nat × Nat)} (h : sortedPairs l = true) :
    l.Pairwise (fun p q => p ≠ q) := by
  rw [sortedPairs_iff_pairwise] at h
  exact h.imp (fun hpq => coordLtb_ne hpq)

theorem all_map_ekey (l : List (Nat × Nat × ℚ)) (p : Nat × Nat → Bool) :
    (l.map ekey).all p = l.all (fun f => p (ekey f)) := by
  induction l with
  | nil => rfl
  | cons f rest ih => simp [ih]

@[simp] theorem sortedEntries_nil : sortedEntries [] = true := rfl

theorem sortedEntries_cons (e : Nat × Nat × ℚ) (l : List (Nat × Nat × ℚ)) :
    sortedEntries (e :: l) =
      (l.all (fun f => coordLtb (ekey e) (ekey f)) && sortedEntries l) := by
  simp only [sortedEntries, List.map_cons, sortedPairs_cons, all_map_ekey]

theorem mem_insertEntry {x e : Nat × Nat × ℚ} {l : List (Nat × Nat × ℚ)}
    (h : x ∈ insertEntry e l) : x = e ∨ x ∈ l := by
  induction l with
  | nil => simpa [insertEntry] using h
  | cons f rest ih =>
    rw [insertEntry] at h
    by_cases h1 : coordLtb (ekey e) (ekey f) = true
    · rw [if_pos h1] at h
      rw [List.mem_cons] at h
      rcases h with h | h
      · exact Or.inl h
      · exact Or.inr h
    · rw [if_neg (by simpa using h1)] at h
      by_cases h2 : ekey e == ekey f
      · rw [if_pos h2] at h
        exact Or.inr h
      · rw [if_neg h2] at h
        rw [List.mem_cons] at h
        rcases h with h | h
        · rw [h]
          exact Or.inr (List.mem_cons_self f rest)
        · rcases ih h with h' | h'
          · exact Or.inl h'
          · exact Or.inr (List.mem_cons_of_mem f h')

theorem insertEntry_sorted {e : Nat × Nat × ℚ} {l : List (Nat × Nat × ℚ)}
    (hs : sortedEntries l = true) : sortedEntries (insertEntry e l) = true := by
  induction l with
  | nil => simp [insertEntry, sortedEntries_cons]
  | cons f rest ih =>
    rw [sortedEntries_cons, Bool.and_eq_true, List.all_eq_true] at hs
    rcases hs with ⟨hall, hrest⟩
    rw [insertEntry]
    by_cases h1 : coordLtb (ekey e) (ekey f) = true
    · rw [if_pos h1]
      rw [sortedEntries_cons, Bool.and_eq_true, List.all_eq_true]
      refine ⟨?_, ?_⟩
      · intro g hg
        rw [List.mem_cons] at hg
        rcases hg with hg | hg
        · exact hg ▸ h1
        · exact coordLtb_trans h1 (hall g hg)
      · rw [sortedEntries_cons, Bool.and_eq_true, List.all_eq_true]
        exact ⟨hall, hrest⟩
    · rw [if_neg (by simpa using h1)]
      by_cases h2 : ekey e == ekey f
      · rw [if_pos h2]
        rw [sortedEntries_cons, Bool.and_eq_true, List.all_eq_true]
        exact ⟨hall, hrest⟩
      · rw [if_neg h2]
        rw [sortedEntries_cons, Bool.and_eq_true, List.all_eq_true]
        refine ⟨?_, ih hrest⟩
        intro g hg
        rcases mem_insertEntry hg with hg' | hg'
        · rw [hg']
          have h2' : ¬ ekey e = ekey f := by simpa using h2
          exact coordLtb_total (by simpa using h1) (fun hk => h2' hk)
        · exact hall g hg'

theorem canonicalize_sorted (l : List (Nat × Nat × ℚ)) :
    sortedEntries (canonicalize l) = true := by
  induction l with
  | nil => rfl
  | cons e rest ih =>
    have : canonicalize (e :: rest) = insertEntry e (canonicalize rest) := rfl
    rw [this]
    exact insertEntry_sorted ih

theorem canonicalize_of_sorted {l : List (Nat × Nat × ℚ)}
    (hs : sortedEntries l = true) : canonicalize l = l := by
  induction l with
  | nil => rfl
  | cons e rest ih =>
    rw [sortedEntries_cons, Bool.and_eq_true, List.all_eq_true] at hs
    rcases hs with ⟨hall, hrest⟩
    have h1 : canonicalize (e :: rest) = insertEntry e (canonicalize rest) := rfl
    rw [h1, ih hrest]
    cases rest with
    | nil => rfl
    | cons f rest2 =>
      rw [insertEntry, if_pos (hall f (List.mem_cons_self f rest2))]

theorem sortedEntries_append {l1 l2 : List (Nat × Nat × ℚ)}
    (h1 : sortedEntries l1 = true) (h2 : sortedEntries l2 = true)
    (hcross : ∀ x ∈ l1, ∀ y ∈ l2, coordLtb (ekey x) (ekey y) = true) :
    sortedEntries (l1 ++ l2) = true := by
  induction l1 with
  | nil => simpa using h2
  | cons e l1' ih =>
    rw [sortedEntries_cons, Bool.and_eq_true, List.all_eq_true] at h1
    rcases h1 with ⟨hall, h1'⟩
    rw [List.cons_append, sortedEntries_cons, Bool.and_eq_true, List.all_eq_true]
    refine ⟨?_, ?_⟩
    · intro g hg
      rw [List.mem_append] at hg
      rcases hg with hg | hg
      · exact hall g hg
      · exact hcross e (List.mem_cons_self e l1') g hg
    · exact ih h1' (fun x hx => hcross x (List.mem_cons_of_mem e hx))

theorem mem_rowEntries {x : Nat × Nat × ℚ} {i : Nat} {vals : List ℚ} {j : Nat}
    (h : x ∈ rowEntries i vals j) : x.1 = i ∧ j ≤ x.2.1 := by
  induction vals generalizing j with
  | nil => simp [rowEntries] at h
  | cons v rest ih =>
    rw [rowEntries, List.mem_append] at h
    rcases h with h | h
    · by_cases hv : (v == 0) = true
      · rw [if_pos hv] at h
        simp at h
      · rw [if_neg hv] at h
        rw [List.mem_singleton] at h
        rw [h]
        exact ⟨rfl, le_refl j⟩
    · rcases ih h with ⟨ha, hb⟩
      exact ⟨ha, Nat.le_of_succ_le hb⟩

theorem rowEntries_sorted (i : Nat) (vals : List ℚ) (j : Nat) :
    sortedEntries (rowEntries i vals j) = true := by
  induction vals generalizing j with
  | nil => rfl
  | cons v rest ih =>
    rw [rowEntries]
    by_cases hv : (v == 0) = true
    · rw [if_pos hv]
      simpa using ih (j + 1)
    · rw [if_neg hv]
      refine sortedEntries_append ?_ (ih (j + 1)) ?_
      · rfl
      · intro x hx y hy
        rw [List.mem_singleton] at hx
        rcases mem_rowEntries hy with ⟨hy1, hy2⟩
        rcases y with ⟨y1, y2, yv⟩
        rw [hx]
        simp only [ekey] at *
        rw [hy1]
        rw [coordLtb_iff]
        right
        exact ⟨rfl, by omega⟩

theorem mem_denseEntriesAux {x : Nat × Nat × ℚ} {rows : List (List ℚ)} {i : Nat}
    (h : x ∈ denseEntriesAux rows i) : i ≤ x.1 := by
  induction rows generalizing i with
  | nil => simp [denseEntriesAux] at h
  | cons r rest ih =>
    rw [denseEntriesAux, List.mem_append] at h
    rcases h with h | h
    · exact (mem_rowEntries h).1 ▸ le_refl i
    · exact Nat.le_of_succ_le (ih h)

theorem denseEntriesAux_sorted (rows : List (List ℚ)) (i : Nat) :
    sortedEntries (denseEntriesAux rows i) = true := by
  induction rows generalizing i with
  | nil => rfl
  | cons r rest ih =>
    rw [denseEntriesAux]
    refine sortedEntries_append (rowEntries_sorted i r 0) (ih (i + 1)) ?_
    intro x hx y hy
    have hx1 : x.1 = i := (mem_rowEntries hx).1
    have hy1 : i + 1 ≤ y.1 := mem_denseEntriesAux hy
    rcases x with ⟨x1, x2, xv⟩
    rcases y with ⟨y1, y2, yv⟩
    simp only [ekey]
    rw [coordLtb_iff]
    left
    simp only at hx1 hy1
    omega

theorem denseEntries_sorted (values : List (List ℚ)) :
    sortedEntries (denseEntries values) = true :=
  denseEntriesAux_sorted values 0

theorem rowEntries_length (i : Nat) (vals : List ℚ) (j : Nat) :
    (rowEntries i vals j).length = (vals.filter (fun v => !(v == 0))).length := by
  induction vals generalizing j with
  | nil => rfl
  | cons v rest ih =>
    rw [rowEntries, List.length_append, List.filter_cons]
    by_cases hv : (v == 0) = true
    · simp [hv, ih (j + 1)]
    · simp [hv, ih (j + 1), Nat.add_comm]

theorem denseEntriesAux_length (rows : List (List ℚ)) (i : Nat) :
    (denseEntriesAux rows i).length =
      (rows.map (fun r => (r.filter (fun v => !(v == 0))).length)).sum := by
  induction rows generalizing i with
  | nil => rfl
  | cons r rest ih =>
    rw [denseEntriesAux, List.length_append, rowEntries_length, List.map_cons, List.sum_cons,
      ih (i + 1)]

theorem denseEntries_length (values : List (List ℚ)) :
    (denseEntries values).length = countNonzero values :=
  denseEntriesAux_length values 0

/-! ## Lemmas about `applyMask` -/

@[simp] theorem applyMask_nil_mask (xs : List α) : applyMask [] xs = [] := rfl

@[simp] theorem applyMask_nil (mask : List Bool) : applyMask mask ([] : List α) = [] := by
  cases mask <;> rfl

theorem applyMask_cons (b : Bool) (mask : List Bool) (x : α) (xs : List α) :
    applyMask (b :: mask) (x :: xs) =
      (if b then [x] else []) ++ applyMask mask xs := by
  cases b <;> simp [applyMask, List.filter_cons]

theorem applyMask_sublist (mask : List Bool) (xs : List α) :
    (applyMask mask xs).Sublist xs := by
  induction mask generalizing xs with
  | nil => simp
  | cons b mask' ih =>
    cases xs with
    | nil => simp
    | cons x xs' =>
      rw [applyMask_cons]
      cases b
      · simpa using List.Sublist.cons x (ih xs')
      · simpa using List.Sublist.cons₂ x (ih xs')

theorem applyMask_length_le (mask : List Bool) (xs : List α) :
    (applyMask mask xs).length ≤ xs.length :=
  (applyMask_sublist mask xs).length_le

theorem applyMask_length_congr {mask : List Bool} {xs : List α} {ys : List γ}
    (h : xs.length = ys.length) :
    (applyMask mask xs).length = (applyMask mask ys).length := by
  induction mask generalizing xs ys with
  | nil => simp
  | cons b mask' ih =>
    cases xs with
    | nil =>
      cases ys with
      | nil => simp
      | cons y ys' => simp at h
    | cons x xs' =>
      cases ys with
      | nil => simp at h
      | cons y ys' =>
        rw [List.length_cons, List.length_cons] at h
        rw [applyMask_cons, applyMask_cons, List.length_append, List.length_append,
          ih (Nat.succ_injective h)]
        cases b <;> rfl

theorem applyMask_map_self (p : α → Bool) (xs : List α) :
    applyMask (xs.map p) xs = xs.filter p := by
  induction xs with
  | nil => rfl
  | cons x xs' ih =>
    rw [List.map_cons, applyMask_cons, List.filter_cons, ih]
    by_cases hx : p x = true
    · simp [hx]
    · simp [hx]

theorem applyMask_zip {mask : List Bool} {xs : List α} {ys : List γ}
    (h : xs.length = ys.length) :
    (applyMask mask xs).zip (applyMask mask ys) = applyMask mask (xs.zip ys) := by
  induction mask generalizing xs ys with
  | nil => simp
  | cons b mask' ih =>
    cases xs with
    | nil =>
      cases ys with
      | nil => simp
      | cons y ys' => simp at h
    | cons x xs' =>
      cases ys with
      | nil => simp at h
      | cons y ys' =>
        rw [List.length_cons, List.length_cons] at h
        rw [List.zip_cons_cons, applyMask_cons, applyMask_cons, applyMask_cons]
        cases b
        · simpa using ih (Nat.succ_injective h)
        · simpa using ih (Nat.succ_injective h)

/-! ## Lemmas about `find?` -/

theorem find?_key_append {layers : List (String × List ℚ)} {name : String}
    (h : ∀ nv ∈ layers, nv.1 ≠ name) (vals : List ℚ) :
    (layers ++ [(name, vals)]).find? (fun nv => nv.1 == name) = some (name, vals) := by
  induction layers with
  | nil => simp [List.find?]
  | cons f rest ih =>
    rw [List.cons_append]
    rw [List.find?_cons_of_neg]
    · exact ih (fun nv hnv => h nv (List.mem_cons_of_mem f hnv))
    · simp [h f (List.mem_cons_self f rest)]

theorem find?_zip_at (qz : (Nat × Nat) × ℚ → Bool) (a : Nat × Nat)
    (hq : ∀ pv, qz pv = true ↔ pv.1 = a) :
    ∀ (pairs : List (Nat × Nat)) (vals : List ℚ), sortedPairs pairs = true →
    ∀ K (hK : K < pairs.length) (hK2 : K < vals.length), pairs.get ⟨K, hK⟩ = a →
      (pairs.zip vals).find? qz = some (a, vals.get ⟨K, hK2⟩) := by
  intro pairs
  induction pairs with
  | nil =>
    intro vals hs K hK
    simp at hK
  | cons p pairs' ih =>
    intro vals hs K hK hK2 hget
    cases vals with
    | nil => simp at hK2
    | cons v vals' =>
      rw [sortedPairs_cons, Bool.and_eq_true, List.all_eq_true] at hs
      rcases hs with ⟨hall, hs'⟩
      cases K with
      | zero =>
        simp only [List.get] at hget
        rw [List.zip_cons_cons, List.find?_cons_of_pos]
        · simp [hget]
        · simp [hq, hget]
      | succ K' =>
        simp only [List.get] at hget
        have hmem : a ∈ pairs' := hget ▸ (pairs'.get_mem _ _)
        have hne : p ≠ a := coordLtb_ne (hall a hmem)
        rw [List.zip_cons_cons, List.find?_cons_of_neg]
        · exact ih vals' hs' K' (Nat.lt_of_succ_lt_succ hK) (Nat.lt_of_succ_lt_succ hK2) hget
        · simp [hq, hne]

theorem find?_zip_none {pairs : List (Nat × Nat)} {vals : List ℚ}
    (qz : (Nat × Nat) × ℚ → Bool) (a : Nat × Nat) (hq : ∀ pv, qz pv = true ↔ pv.1 = a)
    (habs : a ∉ pairs) :
    (pairs.zip vals).find? qz = none := by
  rw [List.find?_eq_none]
  intro pv hpv
  have hmem : pv.1 ∈ pairs := (List.of_mem_zip hpv).1
  simp only [hq]
  intro he
  exact habs (he ▸ hmem)

/-! ## Operation-level lemmas -/

theorem contains_false_not_mem {l : List String} {a : String}
    (h : l.contains a = false) : a ∉ l := by
  intro hmem
  have h2 : l.contains a = true := by simpa using hmem
  rw [h] at h2
  exact Bool.false_ne_true h2

theorem add_dense_ok_project {m : SSS} {values : List (List ℚ)} {name : String}
    (hne : m.score_names.isEmpty = false)
    (hdup : m.score_names.contains name = false)
    (hshape : denseShapeOk m values = true) :
    m.add_dense_matrix values name = .ok (m.addProjected name (projectDense m values)) := by
  rw [SSS.add_dense_matrix, if_neg (by simpa using contains_false_not_mem hdup), if_neg (by simp [hshape]),
    if_neg (by simp [hne])]

theorem add_coo_ok_project {m : SSS} {entries : List (Nat × Nat × ℚ)} {name : String}
    (hne : m.score_names.isEmpty = false)
    (hdup : m.score_names.contains name = false) :
    m.add_coo_matrix entries name = .ok (m.addProjected name (projectCoo m entries)) := by
  rw [SSS.add_coo_matrix, if_neg (by simpa using contains_false_not_mem hdup), if_neg (by simp [hne])]

theorem add_dense_ok_establish {m : SSS} {values : List (List ℚ)} {name : String}
    (hne : m.score_names.isEmpty = true)
    (hdup : m.score_names.contains name = false)
    (hshape : denseShapeOk m values = true) :
    m.add_dense_matrix values name =
      .ok (m.establish (canonicalize (denseEntries values)) name) := by
  rw [SSS.add_dense_matrix, if_neg (by simpa using contains_false_not_mem hdup), if_neg (by simp [hshape]),
    if_pos (by simp [hne])]

theorem add_coo_ok_establish {m : SSS} {entries : List (Nat × Nat × ℚ)} {name : String}
    (hne : m.score_names.isEmpty = true)
    (hdup : m.score_names.contains name = false) :
    m.add_coo_matrix entries name =
      .ok (m.establish (canonicalize (entries.filter (fun e => !(entryVal e == 0)))) name) := by
  rw [SSS.add_coo_matrix, if_neg (by simpa using contains_false_not_mem hdup), if_pos (by simp [hne])]

theorem getLayer_append {m : SSS} {name : String} (vals : List ℚ)
    (halign : m.layers.map Prod.fst = m.score_names)
    (hdup : m.score_names.contains name = false)
    {m2 : SSS} (hlayers : m2.layers = m.layers ++ [(name, vals)]) :
    m2.getLayer name = vals := by
  have hnm : ∀ nv ∈ m.layers, nv.1 ≠ name := by
    intro nv hnv he
    exact contains_false_not_mem hdup (halign ▸ he ▸ List.mem_map_of_mem Prod.fst hnv)
  rw [SSS.getLayer, hlayers, find?_key_append hnm vals]

theorem getLayer_addProjected {m : SSS} {name : String} (vals : List ℚ)
    (halign : m.layers.map Prod.fst = m.score_names)
    (hdup : m.score_names.contains name = false) :
    (m.addProjected name vals).getLayer name = vals :=
  getLayer_append vals halign hdup rfl

theorem getLayer_mem {m : SSS} {name : String} (halign : m.layers.map Prod.fst = m.score_names)
    (hmem : name ∈ m.score_names) :
    ∃ nv ∈ m.layers, nv.1 = name ∧ m.getLayer name = nv.2 := by
  rw [← halign] at hmem
  rw [List.mem_map] at hmem
  rcases hmem with ⟨nv, hnv, hfst⟩
  have hsome : (m.layers.find? (fun nv => nv.1 == name)).isSome := by
    rw [List.find?_isSome]
    exact ⟨nv, hnv, by simp [hfst]⟩
  rcases Option.isSome_iff_exists.mp hsome with ⟨nv', hnv'⟩
  refine ⟨nv', List.mem_of_find?_eq_some hnv', ?_, ?_⟩
  · have := List.find?_some hnv'
    simpa using this
  · rw [SSS.getLayer, hnv']

theorem getLayer_shrinkBy (m : SSS) (mask : List Bool) (name : String) :
    (m.shrinkBy mask).getLayer name = applyMask mask (m.getLayer name) := by
  rw [SSS.getLayer, SSS.getLayer, SSS.shrinkBy]
  simp only
  rw [List.find?_map]
  have hp : ((fun nv : String × List ℚ => nv.1 == name) ∘
      (fun nv : String × List ℚ => (nv.1, applyMask mask nv.2))) =
      (fun nv : String × List ℚ => nv.1 == name) := rfl
  rw [hp]
  cases hfind : m.layers.find? (fun nv => nv.1 == name) with
  | none => simp
  | some nv => simp

theorem invalidRangeB_false {low high : Option ℚ}
    (hrange : ∀ l h, low = some l → high = some h → l ≤ h) :
    invalidRangeB low high = false := by
  cases low with
  | none => cases high <;> rfl
  | some l =>
    cases high with
    | none => rfl
    | some h =>
      have := hrange l h rfl rfl
      simp [invalidRangeB]
      linarith

theorem filter_ok_shrink {m : SSS} {name : String} {low high : Option ℚ}
    (hmem : m.score_names.contains name = true)
    (hrange : ∀ l h, low = some l → high = some h → l ≤ h) :
    m.filter_by_range (some name) low high =
      .ok (m.shrinkBy ((m.getLayer name).map (inRange low high))) := by
  have horelse : (some name).orElse (fun _ => m.score_names.head?) = some name := rfl
  rw [SSS.filter_by_range]
  simp only [horelse]
  rw [SSS.filterWithName, if_pos hmem, invalidRangeB_false hrange,
    if_neg (by simp)]

theorem filter_ok_cases {m : SSS} {name? : Option String} {low high : Option ℚ} {m2 : SSS}
    (heq : m.filter_by_range name? low high = .ok m2) :
    ∃ mask, m2 = m.shrinkBy mask := by
  rw [SSS.filter_by_range] at heq
  cases horelse : name?.orElse (fun _ => m.score_names.head?) with
  | none =>
    rw [horelse] at heq
    exact absurd heq (by simp)
  | some name =>
    rw [horelse] at heq
    simp only [SSS.filterWithName] at heq
    by_cases hmem : m.score_names.contains name = true
    · rw [if_pos hmem] at heq
      by_cases hbad : invalidRangeB low high = true
      · rw [if_pos hbad] at heq
        exact absurd heq (by simp)
      · rw [if_neg (by simpa using hbad)] at heq
        refine ⟨(m.getLayer name).map (inRange low high), ?_⟩
        simpa using heq.symm
    · rw [if_neg (by simpa using hmem)] at heq
      exact absurd heq (by simp)

/-! ## Well-formedness preservation -/

theorem WF_empty (r c : Nat) : (SSS.empty r c).WF := by
  refine ⟨rfl, ?_, rfl, rfl⟩
  intro nv hnv
  simp [SSS.empty] at hnv

theorem WF_establish {m : SSS} (hnames : m.score_names = []) (hWF : m.WF)
    {cEntries : List (Nat × Nat × ℚ)} (hsort : sortedEntries cEntries = true)
    (name : String) : (m.establish cEntries name).WF := by
  have hlayers : m.layers = [] := by
    have := hWF.2.2.1
    rw [hnames] at this
    exact List.map_eq_nil_iff.mp this
  refine ⟨?_, ?_, ?_, ?_⟩
  · simp [SSS.establish]
  · intro nv hnv
    rw [SSS.establish] at hnv
    simp only [hlayers, List.nil_append, List.mem_singleton] at hnv
    rw [hnv]
    simp [SSS.establish, entryVal]
  · simp [SSS.establish, hlayers, hnames]
  · rw [SSS.establish]
    simp only
    rw [List.zip_map']
    exact hsort

theorem WF_addProjected {m : SSS} (hWF : m.WF) (name : String) (vals : List ℚ)
    (hlen : vals.length = m.row.length) : (m.addProjected name vals).WF := by
  refine ⟨hWF.1, ?_, ?_, hWF.2.2.2⟩
  · intro nv hnv
    rw [SSS.addProjected] at hnv
    simp only [List.mem_append, List.mem_singleton] at hnv
    rcases hnv with hnv | hnv
    · exact hWF.2.1 nv hnv
    · rw [hnv]
      exact hlen
  · rw [SSS.addProjected]
    simp [hWF.2.2.1]

theorem projectDense_length (m : SSS) (values : List (List ℚ)) (hWF : m.WF) :
    (projectDense m values).length = m.row.length := by
  rw [projectDense, List.length_map, List.length_zip, hWF.1, Nat.min_self]

theorem projectCoo_length (m : SSS) (entries : List (Nat × Nat × ℚ)) (hWF : m.WF) :
    (projectCoo m entries).length = m.row.length := by
  rw [projectCoo, List.length_map, List.length_zip, hWF.1, Nat.min_self]

theorem WF_shrinkBy {m : SSS} (hWF : m.WF) (mask : List Bool) : (m.shrinkBy mask).WF := by
  refine ⟨?_, ?_, ?_, ?_⟩
  · exact applyMask_length_congr hWF.1
  · intro nv hnv
    rw [SSS.shrinkBy] at hnv
    simp only [List.mem_map] at hnv
    rcases hnv with ⟨nv0, hnv0, hmap⟩
    rw [← hmap]
    exact applyMask_length_congr (hWF.2.1 nv0 hnv0)
  · rw [SSS.shrinkBy]
    simp only [List.map_map]
    have : ((fun nv : String × List ℚ => nv.1) ∘
        (fun nv : String × List ℚ => (nv.1, applyMask mask nv.2))) = Prod.fst := rfl
    rw [← hWF.2.2.1]
    rfl
  · rw [SSS.shrinkBy]
    simp only
    rw [applyMask_zip hWF.1.symm]
    exact sortedPairs_sublist (applyMask_sublist mask (m.row.zip m.col)) hWF.2.2.2

theorem add_dense_ok_cases {m : SSS} {values : List (List ℚ)} {name : String} {m2 : SSS}
    (heq : m.add_dense_matrix values name = .ok m2) :
    (m.score_names.isEmpty = true ∧
      m2 = m.establish (canonicalize (denseEntries values)) name) ∨
    (m.score_names.isEmpty = false ∧
      m2 = m.addProjected name (projectDense m values)) := by
  rw [SSS.add_dense_matrix] at heq
  by_cases hdup : m.score_names.contains name = true
  · rw [if_pos hdup] at heq
    exact absurd heq (by simp)
  · rw [if_neg hdup] at heq
    by_cases hshape : denseShapeOk m values = true
    · rw [if_neg (by simp [hshape])] at heq
      by_cases hne : m.score_names.isEmpty = true
      · rw [if_pos (by simp [hne])] at heq
        exact Or.inl ⟨hne, by simpa using heq.symm⟩
      · rw [if_neg (by simpa using hne)] at heq
        exact Or.inr ⟨by simpa using hne, by simpa using heq.symm⟩
    · rw [if_pos (by simpa using hshape)] at heq
      exact absurd heq (by simp)

theorem add_coo_ok_cases {m : SSS} {entries : List (Nat × Nat × ℚ)} {name : String} {m2 : SSS}
    (heq : m.add_coo_matrix entries name = .ok m2) :
    (m.score_names.isEmpty = true ∧
      m2 = m.establish (canonicalize (entries.filter (fun e => !(entryVal e == 0)))) name) ∨
    (m.score_names.isEmpty = false ∧
      m2 = m.addProjected name (projectCoo m entries)) := by
  rw [SSS.add_coo_matrix] at heq
  by_cases hdup : m.score_names.contains name = true
  · rw [if_pos hdup] at heq
    exact absurd heq (by simp)
  · rw [if_neg hdup] at heq
    by_cases hne : m.score_names.isEmpty = true
    · rw [if_pos (by simp [hne])] at heq
      exact Or.inl ⟨hne, by simpa using heq.symm⟩
    · rw [if_neg (by simpa using hne)] at heq
      exact Or.inr ⟨by simpa using hne, by simpa using heq.symm⟩

theorem add_dense_not_contains {m : SSS} {values : List (List ℚ)} {name : String} {m2 : SSS}
    (heq : m.add_dense_matrix values name = .ok m2) :
    m.score_names.contains name = false := by
  rw [SSS.add_dense_matrix] at heq
  by_cases hdup : m.score_names.contains name = true
  · rw [if_pos hdup] at heq
    exact absurd heq (by simp)
  · simpa using hdup

theorem add_coo_not_contains {m : SSS} {entries : List (Nat × Nat × ℚ)} {name : String}
    {m2 : SSS} (heq : m.add_coo_matrix entries name = .ok m2) :
    m.score_names.contains name = false := by
  rw [SSS.add_coo_matrix] at heq
  by_cases hdup : m.score_names.contains name = true
  · rw [if_pos hdup] at heq
    exact absurd heq (by simp)
  · simpa using hdup

/-! ## The claims -/

/-- **C2.** After every operation (construction, `add_dense`, `add_sparse`,
`filter_by_range`; accessors do not produce a new state in the functional
embedding, so they preserve the state trivially), `row`, `col` and every
layer of `score_names` have equal lengths, the layer store is aligned with
`score_names`, the `(row, col)` pairs are in canonical strictly ascending
order (row ascending, then col ascending within each row), and hence are
pairwise distinct. -/
theorem C2_invariants :
    (∀ r c, (SSS.empty r c).WF) ∧
    (∀ (m : SSS) (values : List (List ℚ)) (name : String) (m2 : SSS),
      m.WF → m.add_dense_matrix values name = .ok m2 → m2.WF) ∧
    (∀ (m : SSS) (entries : List (Nat × Nat × ℚ)) (name : String) (m2 : SSS),
      m.WF → m.add_coo_matrix entries name = .ok m2 → m2.WF) ∧
    (∀ (m : SSS) (name? : Option String) (low high : Option ℚ) (m2 : SSS),
      m.WF → m.filter_by_range name? low high = .ok m2 → m2.WF) ∧
    (∀ m : SSS, m.WF → (m.row.zip m.col).Pairwise (fun p q => p ≠ q)) := by
  refine ⟨WF_empty, ?_, ?_, ?_, ?_⟩
  · intro m values name m2 hWF heq
    rcases add_dense_ok_cases heq with ⟨hne, hm2⟩ | ⟨hne, hm2⟩
    · rw [hm2]
      exact WF_establish (List.isEmpty_iff.mp hne) hWF (canonicalize_sorted _) name
    · rw [hm2]
      exact WF_addProjected hWF name _ (projectDense_length m values hWF)
  · intro m entries name m2 hWF heq
    rcases add_coo_ok_cases heq with ⟨hne, hm2⟩ | ⟨hne, hm2⟩
    · rw [hm2]
      exact WF_establish (List.isEmpty_iff.mp hne) hWF (canonicalize_sorted _) name
    · rw [hm2]
      exact WF_addProjected hWF name _ (projectCoo_length m entries hWF)
  · intro m name? low high m2 hWF heq
    rcases filter_ok_cases heq with ⟨mask, hm2⟩
    rw [hm2]
    exact WF_shrinkBy hWF mask
  · intro m hWF
    exact sortedPairs_pairwise_ne hWF.2.2.2

/-- Witness for C2: the invariants hold concretely for the empty 2×2
matrix and for the matrix obtained from it by `add_dense` of
`[[0, 1], [2, 0]]`. -/
theorem C2_invariants_witness :
    (SSS.empty 2 2).WF ∧
    SSS.WF ⟨2, 2, [0, 1], [1, 0], ["a"], [("a", [1, 2])]⟩ :=
  ⟨C2_invariants.1 2 2,
    C2_invariants.2.1 (SSS.empty 2 2) [[0, 1], [2, 0]] "a"
      ⟨2, 2, [0, 1], [1, 0], ["a"], [("a", [1, 2])]⟩ (C2_invariants.1 2 2) (by decide)⟩

/-- **C4.** Adding the 12×10 row-major grid `0..119` by `add_dense` to an
empty matrix and then filtering with `low=70, high=85` yields a single
layer whose value sequence is exactly `71, 72, ..., 84` in canonical
order (note the strict bounds of the implementation fixed by the test
suite). -/
theorem C4_filter_scenario :
    ((((SSS.empty 12 10).add_dense_matrix grid12x10 "test_score").bind
      (fun m => m.filter_by_range none (some 70) (some 85))).map
      (fun m => (m.score_names, m.getLayer "test_score")))
     = .ok (["test_score"], (List.range 14).map (fun k => ((k + 71 : ℕ) : ℚ))) := by
  decide

/-- **C5.** For every dense `r × c` input with at least one nonzero entry,
`add_dense` on an empty matrix yields `nnz` equal to the number of nonzero
entries and `shape[2] = 1`, with the layer values being the nonzero
entries in canonical (row-major) order; concretely the 12×10 grid `0..119`
yields `nnz = 119` and layer values `1..119`. -/
theorem C5_add_dense_on_empty :
    (∀ (r c : Nat) (values : List (List ℚ)) (name : String),
      values.length = r → (∀ rowv ∈ values, rowv.length = c) →
      (∃ rowv ∈ values, ∃ v ∈ rowv, v ≠ 0) →
      ∃ m2, (SSS.empty r c).add_dense_matrix values name = .ok m2 ∧
        m2.nnz = countNonzero values ∧ m2.shape.2.2 = 1 ∧
        m2.getLayer name = (denseEntries values).map entryVal) ∧
    (((SSS.empty 12 10).add_dense_matrix grid12x10 "test_score").map
      (fun m => (m.nnz, m.shape.2.2, m.getLayer "test_score")) =
      .ok (119, 1, (List.range 119).map (fun k => ((k + 1 : ℕ) : ℚ)))) := by
  constructor
  · intro r c values name hlen hrows _
    have hshape : denseShapeOk (SSS.empty r c) values = true := by
      rw [denseShapeOk]
      simp only [SSS.empty, Bool.and_eq_true, beq_iff_eq, List.all_eq_true]
      exact ⟨hlen, fun rowv hrv => by simp [hrows rowv hrv]⟩
    have hdup : (SSS.empty r c).score_names.contains name = false := rfl
    have hne : (SSS.empty r c).score_names.isEmpty = true := rfl
    have heq := add_dense_ok_establish hne hdup hshape
    have hcanon : canonicalize (denseEntries values) = denseEntries values :=
      canonicalize_of_sorted (denseEntries_sorted values)
    refine ⟨_, heq, ?_, ?_, ?_⟩
    · rw [SSS.nnz, SSS.establish]
      simp only [List.length_map]
      rw [hcanon]
      exact denseEntries_length values
    · rfl
    · rw [hcanon]
      exact @getLayer_append (SSS.empty r c) name ((denseEntries values).map entryVal) rfl rfl
        ((SSS.empty r c).establish (denseEntries values) name) rfl
  · decide

/-- Witness for C5: the universal part applied to the concrete input
`[[0, 5], [3, 0]]` on an empty 2×2 matrix. -/
theorem C5_add_dense_on_empty_witness :
    ∃ m2, (SSS.empty 2 2).add_dense_matrix [[0, 5], [3, 0]] "a" = .ok m2 ∧
      m2.nnz = countNonzero [[0, 5], [3, 0]] ∧ m2.shape.2.2 = 1 ∧
      m2.getLayer "a" = (denseEntries [[0, 5], [3, 0]]).map entryVal :=
  C5_add_dense_on_empty.1 2 2 [[0, 5], [3, 0]] "a" rfl
    (by
      intro rowv hrv
      rw [List.mem_cons, List.mem_singleton] at hrv
      rcases hrv with h | h <;> simp [h])
    ⟨[0, 5], by simp, 5, by simp, by norm_num⟩

/-- **C6.** The sparse scenario: ingesting the coordinate list derived from
the 12×10 grid with odd and multiple-of-4 values zeroed yields layer values
`2, 6, 10, ...` (step 4) with row coordinates `[0,0,1,1,1,2,2,...]`; the
same result is obtained when the coordinate list is supplied in reversed
order (explicit sort/dedup canonicalization); and every matrix established
by `add_coo_matrix` on an empty matrix has canonically sorted coordinates. -/
theorem C6_add_sparse :
    (((SSS.empty 12 10).add_coo_matrix cooScenario "test_score").map
      (fun m => (m.getLayer "test_score", m.row, m.col.take 6)) =
      .ok ((List.range 30).map (fun k => ((4 * k + 2 : ℕ) : ℚ)),
        [0, 0, 1, 1, 1, 2, 2, 3, 3, 3, 4, 4, 5, 5, 5, 6, 6, 7, 7, 7,
         8, 8, 9, 9, 9, 10, 10, 11, 11, 11], [2, 6, 0, 4, 8, 2])) ∧
    (((SSS.empty 12 10).add_coo_matrix cooScenario.reverse "test_score").map
      (fun m => (m.getLayer "test_score", m.row, m.col.take 6)) =
      .ok ((List.range 30).map (fun k => ((4 * k + 2 : ℕ) : ℚ)),
        [0, 0, 1, 1, 1, 2, 2, 3, 3, 3, 4, 4, 5, 5, 5, 6, 6, 7, 7, 7,
         8, 8, 9, 9, 9, 10, 10, 11, 11, 11], [2, 6, 0, 4, 8, 2])) ∧
    (∀ (r c : Nat) (entries : List (Nat × Nat × ℚ)) (name : String) (m2 : SSS),
      (SSS.empty r c).add_coo_matrix entries name = .ok m2 →
      sortedPairs (m2.row.zip m2.col) = true) := by
  refine ⟨by decide, by decide, ?_⟩
  intro r c entries name m2 heq
  rcases add_coo_ok_cases heq with ⟨_, hm2⟩ | ⟨hne, _⟩
  · rw [hm2, SSS.establish]
    simp only
    rw [List.zip_map']
    exact canonicalize_sorted _
  · simp [SSS.empty] at hne

/-- Witness for C6: the universal sortedness part applied to a concrete
out-of-order two-entry ingestion. -/
theorem C6_add_sparse_witness :
    ∀ m2 : SSS, (SSS.empty 3 3).add_coo_matrix [(2, 2, 7), (0, 1, 4)] "a" = .ok m2 →
      sortedPairs (m2.row.zip m2.col) = true :=
  fun m2 heq => C6_add_sparse.2.2 3 3 [(2, 2, 7), (0, 1, 4)] "a" m2 heq

theorem map_zip_getD {xs ys : List Nat} (f : Nat × Nat → ℚ) (h : ys.length = xs.length)
    {k : Nat} (hk : k < xs.length) :
    ((xs.zip ys).map f).getD k 0 = f (xs.getD k 0, ys.getD k 0) := by
  have hz : k < (xs.zip ys).length := by
    rw [List.length_zip]
    omega
  have hm : k < ((xs.zip ys).map f).length := by
    rw [List.length_map]
    exact hz
  rw [List.getD_eq_getElem _ 0 hm, List.getElem_map, List.getElem_zip,
    List.getD_eq_getElem xs 0 hk, List.getD_eq_getElem ys 0 (by omega)]

/-- **C1.** Once the coordinate pattern is established (at least one layer
exists), adding a further layer under a fresh name — dense or sparse —
leaves `row`, `col` and `nnz` unchanged, appends the name (so `shape[2]`
grows by exactly one), and the new layer's value at each existing
coordinate is the input's value there (for a sparse input: zero when the
input has no entry at that coordinate); no new coordinate is introduced. -/
theorem C1_projection_law :
    ∀ (m : SSS) (name : String) (values : List (List ℚ)) (entries : List (Nat × Nat × ℚ)),
      m.WF → m.score_names ≠ [] → m.score_names.contains name = false →
      denseShapeOk m values = true →
      (∃ m2, m.add_dense_matrix values name = .ok m2 ∧
        m2.row = m.row ∧ m2.col = m.col ∧ m2.nnz = m.nnz ∧
        m2.score_names = m.score_names ++ [name] ∧
        m2.shape.2.2 = m.shape.2.2 + 1 ∧
        ∀ k, k < m.nnz →
          (m2.getLayer name).getD k 0 = denseAt values (m.row.getD k 0) (m.col.getD k 0)) ∧
      (∃ m2, m.add_coo_matrix entries name = .ok m2 ∧
        m2.row = m.row ∧ m2.col = m.col ∧ m2.nnz = m.nnz ∧
        m2.score_names = m.score_names ++ [name] ∧
        m2.shape.2.2 = m.shape.2.2 + 1 ∧
        ∀ k, k < m.nnz →
          (m2.getLayer name).getD k 0 = lookupCoo entries (m.row.getD k 0) (m.col.getD k 0)) := by
  intro m name values entries hWF hne hdup hshape
  have hnotempty : m.score_names.isEmpty = false := by
    cases hsn : m.score_names with
    | nil => exact absurd hsn hne
    | cons a l => rfl
  constructor
  · have heq := add_dense_ok_project hnotempty hdup hshape
    refine ⟨_, heq, rfl, rfl, rfl, rfl, ?_, ?_⟩
    · simp [SSS.shape, SSS.addProjected]
    · intro k hk
      rw [getLayer_addProjected _ hWF.2.2.1 hdup]
      rw [projectDense]
      exact map_zip_getD _ hWF.1 hk
  · have heq : m.add_coo_matrix entries name =
        .ok (m.addProjected name (projectCoo m entries)) :=
      add_coo_ok_project hnotempty hdup
    refine ⟨_, heq, rfl, rfl, rfl, rfl, ?_, ?_⟩
    · simp [SSS.shape, SSS.addProjected]
    · intro k hk
      rw [getLayer_addProjected _ hWF.2.2.1 hdup]
      rw [projectCoo]
      exact map_zip_getD _ hWF.1 hk

/-- Witness for C1: adding a second dense layer and a second sparse layer
to a concrete one-layer matrix. -/
theorem C1_projection_law_witness :
    (∃ m2, SSS.add_dense_matrix ⟨1, 2, [0, 0], [0, 1], ["a"], [("a", [5, 6])]⟩
        [[0, 9]] "b" = .ok m2 ∧
      m2.row = [0, 0] ∧ m2.col = [0, 1] ∧ m2.nnz = 2 ∧
      m2.score_names = ["a"] ++ ["b"] ∧
      m2.shape.2.2 = 1 + 1 ∧
      ∀ k, k < 2 →
        (m2.getLayer "b").getD k 0 =
          denseAt [[0, 9]] ([0, 0].getD k 0) ([0, 1].getD k 0)) ∧
    (∃ m2, SSS.add_coo_matrix ⟨1, 2, [0, 0], [0, 1], ["a"], [("a", [5, 6])]⟩
        [(0, 1, 3)] "b" = .ok m2 ∧
      m2.row = [0, 0] ∧ m2.col = [0, 1] ∧ m2.nnz = 2 ∧
      m2.score_names = ["a"] ++ ["b"] ∧
      m2.shape.2.2 = 1 + 1 ∧
      ∀ k, k < 2 →
        (m2.getLayer "b").getD k 0 =
          lookupCoo [(0, 1, 3)] ([0, 0].getD k 0) ([0, 1].getD k 0)) :=
  C1_projection_law ⟨1, 2, [0, 0], [0, 1], ["a"], [("a", [5, 6])]⟩ "b" [[0, 9]] [(0, 1, 3)]
    (by decide) (by decide) (by decide) (by decide)

/-- **C3 (amended).** For every matrix with a layer named `name` and bounds
with `low ≤ high`, `filter_by_range` succeeds and keeps exactly the
positions whose value `v` in that layer satisfies the *strict* comparisons
`low < v < high` (an omitted bound is unbounded on that side); the same
keep mask is applied to `row`, `col` and every layer in lock-step, so every
other layer's surviving values are exactly its previous values at the
surviving positions; `nnz` never increases. -/
theorem C3_filter_range :
    ∀ (m : SSS) (name : String) (low high : Option ℚ),
      m.WF → name ∈ m.score_names →
      (∀ l h, low = some l → high = some h → l ≤ h) →
      ∃ m2, m.filter_by_range (some name) low high = .ok m2 ∧
        m2.nnz ≤ m.nnz ∧
        m2.getLayer name = (m.getLayer name).filter (inRange low high) ∧
        (∀ v ∈ m2.getLayer name, inRange low high v = true) ∧
        m2.nnz = ((m.getLayer name).filter (inRange low high)).length ∧
        (∀ name2, m2.getLayer name2 =
          applyMask ((m.getLayer name).map (inRange low high)) (m.getLayer name2)) ∧
        m2.row = applyMask ((m.getLayer name).map (inRange low high)) m.row ∧
        m2.col = applyMask ((m.getLayer name).map (inRange low high)) m.col := by
  intro m name low high hWF hmem hrange
  have hcont : m.score_names.contains name = true := by simpa using hmem
  have heq := filter_ok_shrink hcont hrange
  refine ⟨_, heq, ?_, ?_, ?_, ?_, ?_, rfl, rfl⟩
  · exact applyMask_length_le _ _
  · rw [getLayer_shrinkBy, applyMask_map_self]
  · intro v hv
    rw [getLayer_shrinkBy, applyMask_map_self] at hv
    exact List.of_mem_filter hv
  · rcases getLayer_mem hWF.2.2.1 hmem with ⟨nv, hnv, hfst, hgl⟩
    have hlay_len : m.row.length = (m.getLayer name).length := by
      rw [hgl]
      exact (hWF.2.1 nv hnv).symm
    show (applyMask _ m.row).length = _
    rw [applyMask_length_congr hlay_len, applyMask_map_self]
  · intro name2
    exact getLayer_shrinkBy m _ name2

/-- Witness for C3: filtering the scenario-1 two-entry matrix by the range
(4, 6). -/
theorem C3_filter_range_witness :
    ∃ m2, SSS.filter_by_range ⟨1, 2, [0, 0], [0, 1], ["a"], [("a", [5, 6])]⟩
        (some "a") (some 4) (some 6) = .ok m2 ∧
      m2.nnz ≤ 2 ∧
      m2.getLayer "a" = ([5, 6].filter (inRange (some 4) (some 6))) ∧
      (∀ v ∈ m2.getLayer "a", inRange (some 4) (some 6) v = true) ∧
      m2.nnz = ([5, 6].filter (inRange (some 4) (some 6))).length ∧
      (∀ name2, m2.getLayer name2 =
        applyMask ([5, 6].map (inRange (some 4) (some 6)))
          (SSS.getLayer ⟨1, 2, [0, 0], [0, 1], ["a"], [("a", [5, 6])]⟩ name2)) ∧
      m2.row = applyMask ([5, 6].map (inRange (some 4) (some 6))) [0, 0] ∧
      m2.col = applyMask ([5, 6].map (inRange (some 4) (some 6))) [0, 1] := by
  have h := C3_filter_range ⟨1, 2, [0, 0], [0, 1], ["a"], [("a", [5, 6])]⟩ "a"
    (some 4) (some 6) (by decide)
    (by decide)
    (by
      intro l h hl hh
      rw [Option.some_inj] at hl hh
      rw [← hl, ← hh]
      norm_num)
  simpa using h

/-- **C7.** Each validation failure is reported synchronously as the
corresponding error value, and — the operations being functions from the
old state to an `Except` result — an erroring call yields no new state at
all, so the matrix is left completely unchanged: validation precedes any
mutation. -/
theorem C7_validation :
    (∀ (m : SSS) (values : List (List ℚ)) (name : String),
      m.score_names.contains name = true →
      m.add_dense_matrix values name = .error .duplicateLayer) ∧
    (∀ (m : SSS) (values : List (List ℚ)) (name : String),
      m.score_names.contains name = false → denseShapeOk m values = false →
      m.add_dense_matrix values name = .error .shapeMismatch) ∧
    (∀ (m : SSS) (entries : List (Nat × Nat × ℚ)) (name : String),
      m.score_names.contains name = true →
      m.add_coo_matrix entries name = .error .duplicateLayer) ∧
    (∀ (m : SSS) (name : String) (low high : Option ℚ),
      m.score_names.contains name = false →
      m.filter_by_range (some name) low high = .error .unknownLayer) ∧
    (∀ (m : SSS) (name : String) (l h : ℚ),
      m.score_names.contains name = true → h < l →
      m.filter_by_range (some name) (some l) (some h) = .error .invalidRange) ∧
    (∀ (m : SSS) (i j : Int) (k : Nat),
      ¬(0 ≤ normIdx m.n_row i ∧ normIdx m.n_row i < (m.n_row : Int) ∧
        0 ≤ normIdx m.n_col j ∧ normIdx m.n_col j < (m.n_col : Int)) →
      m.scalarGet i j k = .error .indexOutOfBounds) := by
  refine ⟨?_, ?_, ?_, ?_, ?_, ?_⟩
  · intro m values name h
    rw [SSS.add_dense_matrix, if_pos h]
  · intro m values name h1 h2
    rw [SSS.add_dense_matrix, if_neg (by simpa using contains_false_not_mem h1),
      if_pos (by simp [h2])]
  · intro m entries name h
    rw [SSS.add_coo_matrix, if_pos h]
  · intro m name low high h
    rw [SSS.filter_by_range]
    have horelse : (some name).orElse (fun _ => m.score_names.head?) = some name := rfl
    simp only [horelse]
    rw [SSS.filterWithName, if_neg (by rw [h]; simp)]
  · intro m name l h hc hlt
    rw [SSS.filter_by_range]
    have horelse : (some name).orElse (fun _ => m.score_names.head?) = some name := rfl
    simp only [horelse]
    rw [SSS.filterWithName, if_pos hc, if_pos (by simp [invalidRangeB, hlt])]
  · intro m i j k h
    simp only [SSS.scalarGet]
    rw [if_neg h]

/-- Witness for C7: each validation error on a concrete one-layer 1×2
matrix. -/
theorem C7_validation_witness :
    (SSS.add_dense_matrix ⟨1, 2, [0, 0], [0, 1], ["a"], [("a", [5, 6])]⟩ [[1, 2]] "a" =
      .error .duplicateLayer) ∧
    (SSS.add_dense_matrix ⟨1, 2, [0, 0], [0, 1], ["a"], [("a", [5, 6])]⟩ [[1]] "b" =
      .error .shapeMismatch) ∧
    (SSS.add_coo_matrix ⟨1, 2, [0, 0], [0, 1], ["a"], [("a", [5, 6])]⟩ [] "a" =
      .error .duplicateLayer) ∧
    (SSS.filter_by_range ⟨1, 2, [0, 0], [0, 1], ["a"], [("a", [5, 6])]⟩ (some "b")
      none none = .error .unknownLayer) ∧
    (SSS.filter_by_range ⟨1, 2, [0, 0], [0, 1], ["a"], [("a", [5, 6])]⟩ (some "a")
      (some 7) (some 2) = .error .invalidRange) ∧
    (SSS.scalarGet ⟨1, 2, [0, 0], [0, 1], ["a"], [("a", [5, 6])]⟩ 4 0 0 =
      .error .indexOutOfBounds) :=
  ⟨C7_validation.1 _ [[1, 2]] "a" (by decide),
   C7_validation.2.1 _ [[1]] "b" (by decide) (by decide),
   C7_validation.2.2.1 _ [] "a" (by decide),
   C7_validation.2.2.2.1 _ "b" none none (by decide),
   C7_validation.2.2.2.2.1 _ "a" 7 2 (by decide) (by norm_num),
   C7_validation.2.2.2.2.2 _ 4 0 0 (by decide)⟩

/-- Counterexample to C3 as stated: with a one-entry layer of value 5 and
bounds `low = 5`, `high = 6` (so `low ≤ 5 ≤ high` holds), filtering removes
the entry — the implementation's comparisons are strict, not inclusive. -/
theorem C3_counterexample_inclusive_bounds :
    (5 : ℚ) ≤ 5 ∧ (5 : ℚ) ≤ 6 ∧
    (SSS.filter_by_range ⟨1, 1, [0], [0], ["a"], [("a", [5])]⟩ (some "a")
      (some 5) (some 6)).map (fun m => m.getLayer "a") = .ok [] := by
  refine ⟨by norm_num, by norm_num, by decide⟩

/-- **C8.** For an in-bounds query coordinate (after negative-index
normalization) and a valid layer position, scalar lookup returns the
stored value of the selected layer when the coordinate is in the pattern,
and the zero/neutral value when it is not. (Accessors are pure functions
in the embedding: they return a value and no new state, so they cannot
mutate the coordinate index or any layer.) -/
theorem C8_scalar_lookup :
    ∀ (m : SSS) (i j : Int) (kpos a b : Nat),
      m.WF → kpos < m.layers.length →
      normIdx m.n_row i = (a : Int) → a < m.n_row →
      normIdx m.n_col j = (b : Int) → b < m.n_col →
      (∀ K (hK : K < (m.row.zip m.col).length),
        (m.row.zip m.col).get ⟨K, hK⟩ = (a, b) →
        m.scalarGet i j kpos = .ok ((m.layerByPos kpos).getD K 0)) ∧
      ((a, b) ∉ m.row.zip m.col → m.scalarGet i j kpos = .ok 0) := by
  intro m i j kpos a b hWF hk ha haN hb hbN
  have hcond : 0 ≤ normIdx m.n_row i ∧ normIdx m.n_row i < (m.n_row : Int) ∧
      0 ≤ normIdx m.n_col j ∧ normIdx m.n_col j < (m.n_col : Int) := by
    rw [ha, hb]
    refine ⟨Int.ofNat_nonneg a, ?_, Int.ofNat_nonneg b, ?_⟩
    · exact_mod_cast haN
    · exact_mod_cast hbN
  have hfun : (fun pv : (Nat × Nat) × ℚ =>
      ((pv.1.1 : Int) == normIdx m.n_row i) && ((pv.1.2 : Int) == normIdx m.n_col j)) =
      (fun pv : (Nat × Nat) × ℚ => (pv.1.1 == a) && (pv.1.2 == b)) := by
    funext pv
    rw [ha, hb, Bool.eq_iff_iff]
    simp
  have hq : ∀ pv : (Nat × Nat) × ℚ,
      ((pv.1.1 == a) && (pv.1.2 == b)) = true ↔ pv.1 = (a, b) := by
    intro pv
    rcases pv with ⟨⟨x, y⟩, v⟩
    simp [Prod.mk.injEq]
  have hlayer_len : (m.layerByPos kpos).length = m.row.length := by
    rw [SSS.layerByPos, List.getD_eq_getElem _ _ hk]
    exact hWF.2.1 _ (List.getElem_mem hk)
  have hpairs_len : (m.row.zip m.col).length = m.row.length := by
    rw [List.length_zip, hWF.1, Nat.min_self]
  constructor
  · intro K hK hget
    have hK2 : K < (m.layerByPos kpos).length := by
      rw [hlayer_len]
      rw [hpairs_len] at hK
      exact hK
    have hfind := find?_zip_at (fun pv : (Nat × Nat) × ℚ => (pv.1.1 == a) && (pv.1.2 == b))
      (a, b) hq (m.row.zip m.col) (m.layerByPos kpos) hWF.2.2.2 K hK hK2 hget
    simp only [SSS.scalarGet]
    rw [if_pos hcond, hfun, hfind]
    rw [List.getD_eq_getElem _ 0 hK2, List.get_eq_getElem]
  · intro habs
    have hfind := @find?_zip_none (m.row.zip m.col) (m.layerByPos kpos)
      (fun pv : (Nat × Nat) × ℚ => (pv.1.1 == a) && (pv.1.2 == b)) (a, b) hq habs
    simp only [SSS.scalarGet]
    rw [if_pos hcond, hfun, hfind]

/-- Witness for C8: on a concrete one-layer 1×2 matrix, the lookup at
`(0, -1)` (negative column index, normalized to column 1) returns the
stored value, and on a 2×2 matrix with a single entry the lookup at an
in-bounds coordinate outside the pattern returns 0. -/
theorem C8_scalar_lookup_witness :
    (SSS.scalarGet ⟨1, 2, [0, 0], [0, 1], ["a"], [("a", [5, 6])]⟩ 0 (-1) 0 =
      .ok ((SSS.layerByPos ⟨1, 2, [0, 0], [0, 1], ["a"], [("a", [5, 6])]⟩ 0).getD 1 0)) ∧
    (SSS.scalarGet ⟨2, 2, [0], [1], ["a"], [("a", [5])]⟩ 1 1 0 = .ok 0) :=
  ⟨(C8_scalar_lookup ⟨1, 2, [0, 0], [0, 1], ["a"], [("a", [5, 6])]⟩ 0 (-1) 0 0 1
      (by decide) (by decide) (by decide) (by decide) (by decide) (by decide)).1
      1 (by decide) (by decide),
   (C8_scalar_lookup ⟨2, 2, [0], [1], ["a"], [("a", [5])]⟩ 1 1 0 1 1
      (by decide) (by decide) (by decide) (by decide) (by decide) (by decide)).2
      (by decide)⟩

/-- **C10 (amended).** For every non-`None` input spectrum *whose charge
metadata is present*, the returned charge's sign agrees with the ionmode
(`positive` gives a charge ≥ 1, `negative` gives a charge ≤ -1); when the
charge metadata is absent the returned charge is 0 whatever the ionmode
(the `charge is None` branch assigns 0 and skips the zero-charge ionmode
fixups, and `sign(0) = 0` triggers no correction). The function operates
on a clone: it returns a new spectrum whose other metadata (ionmode) is
unchanged, and — being a pure function of its input in the embedding —
never modifies the input spectrum. -/
theorem C10_correct_charge :
    ∀ s : Spectrum,
      ((∀ c0, s.charge = some c0 →
        (s.ionmode = some "positive" →
          ∃ s2 c, correct_charge (some s) = some s2 ∧ s2.charge = some c ∧ 1 ≤ c) ∧
        (s.ionmode = some "negative" →
          ∃ s2 c, correct_charge (some s) = some s2 ∧ s2.charge = some c ∧ c ≤ -1))) ∧
      (s.charge = none → ∃ s2, correct_charge (some s) = some s2 ∧ s2.charge = some 0) ∧
      (∃ s2, correct_charge (some s) = some s2 ∧ s2.ionmode = s.ionmode) := by
  intro s
  refine ⟨?_, ?_, ?_⟩
  · intro c0 hs
    constructor
    · intro hion
      by_cases hc0 : c0 = 0
      · refine ⟨s.set_charge 1, 1, ?_, rfl, le_refl 1⟩
        simp [correct_charge, Spectrum.clone, Spectrum.set_charge, hs, hion, hc0]
      · rcases lt_trichotomy c0 0 with hneg | hzero | hpos
        · have hsg : c0.sign = -1 := Int.sign_eq_neg_one_iff_neg.mpr hneg
          refine ⟨s.set_charge (c0 * (-1)), c0 * (-1), ?_, rfl, by omega⟩
          simp [correct_charge, Spectrum.clone, Spectrum.set_charge, hs, hion, hc0, hsg]
        · exact absurd hzero hc0
        · have hsg : c0.sign = 1 := Int.sign_eq_one_iff_pos.mpr hpos
          refine ⟨s.set_charge c0, c0, ?_, rfl, by omega⟩
          simp [correct_charge, Spectrum.clone, Spectrum.set_charge, hs, hion, hc0, hsg]
    · intro hion
      by_cases hc0 : c0 = 0
      · refine ⟨s.set_charge (-1), -1, ?_, rfl, le_refl (-1)⟩
        simp [correct_charge, Spectrum.clone, Spectrum.set_charge, hs, hion, hc0]
      · rcases lt_trichotomy c0 0 with hneg | hzero | hpos
        · have hsg : c0.sign = -1 := Int.sign_eq_neg_one_iff_neg.mpr hneg
          refine ⟨s.set_charge c0, c0, ?_, rfl, by omega⟩
          simp [correct_charge, Spectrum.clone, Spectrum.set_charge, hs, hion, hc0, hsg]
        · exact absurd hzero hc0
        · have hsg : c0.sign = 1 := Int.sign_eq_one_iff_pos.mpr hpos
          refine ⟨s.set_charge (c0 * (-1)), c0 * (-1), ?_, rfl, by omega⟩
          simp [correct_charge, Spectrum.clone, Spectrum.set_charge, hs, hion, hc0, hsg]
  · intro hs
    refine ⟨s.set_charge 0, ?_, rfl⟩
    simp [correct_charge, Spectrum.clone, Spectrum.set_charge, hs]
  · refine ⟨_, rfl, rfl⟩

/-- Counterexample to C10 as stated: a spectrum with ionmode `positive`
and *no* charge metadata is returned with charge 0, not ≥ 1 — the
`charge is None` branch assigns 0 and skips the ionmode-based fixup, and
`numpy.sign(0) = 0` triggers no sign correction. -/
theorem C10_counterexample_missing_charge :
    correct_charge (some ⟨some "positive", none⟩) = some ⟨some "positive", some 0⟩ ∧
    ¬(1 ≤ (0 : Int)) := by
  refine ⟨by decide, by norm_num⟩

/-- Witness for C10: concrete spectra with present charge metadata in both
ionmodes, and one with absent charge metadata. -/
theorem C10_correct_charge_witness :
    (∃ s2 c, correct_charge (some ⟨some "positive", some (-3)⟩) = some s2 ∧
      s2.charge = some c ∧ 1 ≤ c) ∧
    (∃ s2 c, correct_charge (some ⟨some "negative", some 2⟩) = some s2 ∧
      s2.charge = some c ∧ c ≤ -1) ∧
    (∃ s2, correct_charge (some ⟨some "positive", none⟩) = some s2 ∧
      s2.charge = some 0) :=
  ⟨((C10_correct_charge ⟨some "positive", some (-3)⟩).1 (-3) rfl).1 rfl,
   ((C10_correct_charge ⟨some "negative", some 2⟩).1 2 rfl).2 rfl,
   (C10_correct_charge ⟨some "positive", none⟩).2.1 rfl⟩

/-! ## Characterization of the `BaseSimilarity.matrix` double loop -/

theorem writeCell_at {β : Type _} (m : Nat → Nat → β) (i j : Nat) (v : β) :
    writeCell m i j v i j = v := by
  simp [writeCell]

theorem writeCell_ne {β : Type _} (m : Nat → Nat → β) (i j : Nat) (v : β) {a b : Nat}
    (h : ¬(a = i ∧ b = j)) : writeCell m i j v a b = m a b := by
  simp only [writeCell]
  rw [if_neg h]

theorem symStep_eq {β : Type _} (p : Nat → Nat → β) (i : Nat) (m : Nat → Nat → β)
    (j : Nat) : symStep p i m j = writeCell (writeCell m i j (p i j)) j i (p i j) := by
  simp only [symStep, writeCell_at]

theorem symInner_char {β : Type _} (p : Nat → Nat → β) (i : Nat) :
    ∀ (js : List Nat) (m : Nat → Nat → β) (a b : Nat),
      (js.foldl (symStep p i) m) a b =
        if a = i ∧ b ∈ js then p i b
        else if b = i ∧ a ∈ js then p i a
        else m a b := by
  intro js
  induction js with
  | nil =>
    intro m a b
    simp
  | cons j js' ih =>
    intro m a b
    rw [List.foldl_cons, ih]
    by_cases h1 : a = i ∧ b ∈ js'
    · rw [if_pos h1, if_pos ⟨h1.1, List.mem_cons_of_mem j h1.2⟩]
    · rw [if_neg h1]
      by_cases h2 : b = i ∧ a ∈ js'
      · rw [if_pos h2]
        by_cases hr : a = i ∧ b ∈ j :: js'
        · rw [if_pos hr, h2.1, hr.1]
        · rw [if_neg hr, if_pos ⟨h2.1, List.mem_cons_of_mem j h2.2⟩]
      · rw [if_neg h2, symStep_eq]
        by_cases hij : a = j ∧ b = i
        · rw [hij.1, hij.2, writeCell_at]
          by_cases hji : j = i
          · rw [if_pos ⟨hji, by rw [hji]; exact List.mem_cons_self i js'⟩, hji]
          · rw [if_neg (by rintro ⟨he, _⟩; exact hji he),
              if_pos ⟨rfl, List.mem_cons_self j js'⟩]
        · by_cases hii : a = i ∧ b = j
          · rw [writeCell_ne _ _ _ _ hij]
            simp only [writeCell]
            rw [if_pos hii,
              if_pos ⟨hii.1, by rw [hii.2]; exact List.mem_cons_self j js'⟩, hii.2]
          · rw [writeCell_ne _ _ _ _ hij, writeCell_ne _ _ _ _ hii]
            have hr1 : ¬(a = i ∧ b ∈ j :: js') := by
              rintro ⟨ha', hb'⟩
              rw [List.mem_cons] at hb'
              rcases hb' with hb' | hb'
              · exact hii ⟨ha', hb'⟩
              · exact h1 ⟨ha', hb'⟩
            have hr2 : ¬(b = i ∧ a ∈ j :: js') := by
              rintro ⟨hb', ha'⟩
              rw [List.mem_cons] at ha'
              rcases ha' with ha' | ha'
              · exact hij ⟨ha', hb'⟩
              · exact h2 ⟨hb', ha'⟩
            rw [if_neg hr1, if_neg hr2]

theorem symOuter_char {β : Type _} (p : Nat → Nat → β) (n : Nat) :
    ∀ (is : List Nat) (m : Nat → Nat → β) (a b : Nat),
      (is.foldl (fun acc i => (List.range' i (n - i)).foldl (symStep p i) acc) m) a b =
        if a ∈ is ∧ a ≤ b ∧ b < n then p a b
        else if b ∈ is ∧ b ≤ a ∧ a < n then p b a
        else m a b := by
  intro is
  induction is with
  | nil =>
    intro m a b
    simp
  | cons i0 is' ih =>
    intro m a b
    rw [List.foldl_cons, ih]
    have hmem : ∀ x : Nat, (x ∈ List.range' i0 (n - i0)) ↔ (i0 ≤ x ∧ x < n) := by
      intro x
      rw [List.mem_range'_1]
      omega
    by_cases h1 : a ∈ is' ∧ a ≤ b ∧ b < n
    · rw [if_pos h1, if_pos ⟨List.mem_cons_of_mem i0 h1.1, h1.2⟩]
    · rw [if_neg h1]
      by_cases h2 : b ∈ is' ∧ b ≤ a ∧ a < n
      · rw [if_pos h2]
        by_cases hr : a ∈ i0 :: is' ∧ a ≤ b ∧ b < n
        · rw [if_pos hr, le_antisymm hr.2.1 h2.2.1]
        · rw [if_neg hr, if_pos ⟨List.mem_cons_of_mem i0 h2.1, h2.2⟩]
      · rw [if_neg h2, symInner_char]
        by_cases h3 : a = i0 ∧ b ∈ List.range' i0 (n - i0)
        · rw [if_pos h3]
          have hb' := (hmem b).mp h3.2
          have hc : a ∈ i0 :: is' ∧ a ≤ b ∧ b < n := by
            refine ⟨?_, ?_, hb'.2⟩
            · rw [h3.1]
              exact List.mem_cons_self i0 is'
            · rw [h3.1]
              exact hb'.1
          rw [if_pos hc, h3.1]
        · rw [if_neg h3]
          by_cases h4 : b = i0 ∧ a ∈ List.range' i0 (n - i0)
          · rw [if_pos h4]
            have ha' := (hmem a).mp h4.2
            have hb0 := h4.1
            have hc1 : ¬(a ∈ i0 :: is' ∧ a ≤ b ∧ b < n) := by
              rintro ⟨hmem1, hab, hbn⟩
              rw [List.mem_cons] at hmem1
              rcases hmem1 with he | he
              · exact h3 ⟨he, (hmem b).mpr ⟨by omega, hbn⟩⟩
              · exact h1 ⟨he, hab, hbn⟩
            have hc2 : b ∈ i0 :: is' ∧ b ≤ a ∧ a < n := by
              refine ⟨?_, ?_, ha'.2⟩
              · rw [h4.1]
                exact List.mem_cons_self i0 is'
              · rw [h4.1]
                exact ha'.1
            rw [if_neg hc1, if_pos hc2, h4.1]
          · rw [if_neg h4]
            have hc1 : ¬(a ∈ i0 :: is' ∧ a ≤ b ∧ b < n) := by
              rintro ⟨hmem1, hab, hbn⟩
              rw [List.mem_cons] at hmem1
              rcases hmem1 with he | he
              · exact h3 ⟨he, (hmem b).mpr ⟨by omega, hbn⟩⟩
              · exact h1 ⟨he, hab, hbn⟩
            have hc2 : ¬(b ∈ i0 :: is' ∧ b ≤ a ∧ a < n) := by
              rintro ⟨hmem1, hba, han⟩
              rw [List.mem_cons] at hmem1
              rcases hmem1 with he | he
              · exact h4 ⟨he, (hmem a).mpr ⟨by omega, han⟩⟩
              · exact h2 ⟨he, hba, han⟩
            rw [if_neg hc1, if_neg hc2]

theorem fullInner_char {β : Type _} (p : Nat → Nat → β) (i : Nat) :
    ∀ (js : List Nat) (m : Nat → Nat → β) (a b : Nat),
      (js.foldl (fullStep p i) m) a b =
        if a = i ∧ b ∈ js then p i b else m a b := by
  intro js
  induction js with
  | nil =>
    intro m a b
    simp
  | cons j js' ih =>
    intro m a b
    rw [List.foldl_cons, ih]
    by_cases h1 : a = i ∧ b ∈ js'
    · rw [if_pos h1, if_pos ⟨h1.1, List.mem_cons_of_mem j h1.2⟩]
    · rw [if_neg h1]
      simp only [fullStep, writeCell]
      by_cases h2 : a = i ∧ b = j
      · rw [if_pos h2,
          if_pos ⟨h2.1, by rw [h2.2]; exact List.mem_cons_self j js'⟩, h2.2]
      · rw [if_neg h2]
        have hc : ¬(a = i ∧ b ∈ j :: js') := by
          rintro ⟨ha', hb'⟩
          rw [List.mem_cons] at hb'
          rcases hb' with hb' | hb'
          · exact h2 ⟨ha', hb'⟩
          · exact h1 ⟨ha', hb'⟩
        rw [if_neg hc]

theorem fullOuter_char {β : Type _} (p : Nat → Nat → β) (nc : Nat) :
    ∀ (is : List Nat) (m : Nat → Nat → β) (a b : Nat),
      (is.foldl (fun acc i => (List.range nc).foldl (fullStep p i) acc) m) a b =
        if a ∈ is ∧ b < nc then p a b else m a b := by
  intro is
  induction is with
  | nil =>
    intro m a b
    simp
  | cons i0 is' ih =>
    intro m a b
    rw [List.foldl_cons, ih]
    by_cases h1 : a ∈ is' ∧ b < nc
    · rw [if_pos h1, if_pos ⟨List.mem_cons_of_mem i0 h1.1, h1.2⟩]
    · rw [if_neg h1, fullInner_char]
      by_cases h2 : a = i0 ∧ b ∈ List.range nc
      · rw [if_pos h2,
          if_pos ⟨by rw [h2.1]; exact List.mem_cons_self i0 is', List.mem_range.mp h2.2⟩,
          h2.1]
      · rw [if_neg h2]
        have hc : ¬(a ∈ i0 :: is' ∧ b < nc) := by
          rintro ⟨hmem1, hb⟩
          rw [List.mem_cons] at hmem1
          rcases hmem1 with he | he
          · exact h2 ⟨he, List.mem_range.mpr hb⟩
          · exact h1 ⟨he, hb⟩
        rw [if_neg hc]

theorem matrixFill_sym {β : Type _} (p : Nat → Nat → β) (nr nc : Nat)
    (m : Nat → Nat → β) :
    matrixFill p nr nc true true m =
      (List.range nr).foldl
        (fun acc i => (List.range' i (nc - i)).foldl (symStep p i) acc) m := rfl

theorem matrixFill_nonsym {β : Type _} (p : Nat → Nat → β) (nr nc : Nat)
    (comm : Bool) (m : Nat → Nat → β) :
    matrixFill p nr nc false comm m =
      (List.range nr).foldl
        (fun acc i => (List.range nc).foldl (fullStep p i) acc) m := rfl

theorem getD_mem {α : Type _} {S : List α} {i : Nat} (dflt : α) (h : i < S.length) :
    S.getD i dflt ∈ S := by
  rw [List.getD_eq_getElem _ _ h]
  exact List.getElem_mem h

theorem symFill_value {β : Type _} (p : Nat → Nat → β) (n : Nat)
    (scores0 : Nat → Nat → β) {a b : Nat} (ha : a < n) (hb : b < n) :
    matrixFill p n n true true scores0 a b = if a ≤ b then p a b else p b a := by
  rw [matrixFill_sym, symOuter_char]
  by_cases hab : a ≤ b
  · rw [if_pos ⟨List.mem_range.mpr ha, hab, hb⟩, if_pos hab]
  · have hba : b ≤ a := le_of_not_le hab
    rw [if_neg (by rintro ⟨_, h, _⟩; exact hab h),
      if_pos ⟨List.mem_range.mpr hb, hba, ha⟩, if_neg hab]

theorem fullFill_value {β : Type _} (p : Nat → Nat → β) (n : Nat)
    (scores0 : Nat → Nat → β) (comm : Bool) {a b : Nat} (ha : a < n) (hb : b < n) :
    matrixFill p n n false comm scores0 a b = p a b := by
  rw [matrixFill_nonsym, fullOuter_char, if_pos ⟨List.mem_range.mpr ha, hb⟩]

/-- **C9.** For a commutative similarity (class attribute
`is_commutative = True`) whose `pair` function is commutative on the
spectrum list `S`, the all-vs-all score array computed with
`is_symmetric=True` (diagonal-start inner loop plus mirror writes into the
uninitialized array) equals the one computed with `is_symmetric=False`
(full double loop), independently of the uninitialized array contents; in
particular the filled array is symmetric at all in-range indices. -/
theorem C9_matrix_symmetric {α β : Type _} :
    ∀ (pair : α → α → β) (dflt : α) (S : List α) (scores0 scores0' : Nat → Nat → β),
      (∀ x ∈ S, ∀ y ∈ S, pair x y = pair y x) →
      BaseSimilarity.matrix pair true dflt S S true scores0 =
        BaseSimilarity.matrix pair true dflt S S false scores0' ∧
      (∀ a b, a < S.length → b < S.length →
        matrixFill (pairAt pair dflt S S) S.length S.length true true scores0 a b =
          matrixFill (pairAt pair dflt S S) S.length S.length true true scores0 b a) := by
  intro pair dflt S scores0 scores0' hcomm
  have hpcomm : ∀ a b, a < S.length → b < S.length →
      pairAt pair dflt S S a b = pairAt pair dflt S S b a := by
    intro a b ha hb
    exact hcomm _ (getD_mem dflt ha) _ (getD_mem dflt hb)
  constructor
  · simp only [BaseSimilarity.matrix]
    refine List.map_congr_left ?_
    intro i hi
    refine List.map_congr_left ?_
    intro j hj
    rw [List.mem_range] at hi hj
    rw [symFill_value _ _ _ hi hj, fullFill_value _ _ _ _ hi hj]
    by_cases hab : i ≤ j
    · rw [if_pos hab]
    · rw [if_neg hab]
      exact hpcomm j i hj hi
  · intro a b ha hb
    rw [symFill_value _ _ _ ha hb, symFill_value _ _ _ hb ha]
    by_cases hab : a ≤ b
    · by_cases hba : b ≤ a
      · rw [if_pos hab, if_pos hba, le_antisymm hab hba]
      · rw [if_pos hab, if_neg hba]
    · rw [if_neg hab, if_pos (le_of_not_le hab)]

/-- Witness for C9: the concrete commutative pair function `(+)` on the
two-element list `[1, 2]` over ℚ, with two different uninitialized-array
contents. -/
theorem C9_matrix_symmetric_witness :
    BaseSimilarity.matrix (fun x y : ℚ => x + y) true 0 [1, 2] [1, 2] true
        (fun _ _ => 37) =
      BaseSimilarity.matrix (fun x y : ℚ => x + y) true 0 [1, 2] [1, 2] false
        (fun _ _ => 99) :=
  (C9_matrix_symmetric (fun x y : ℚ => x + y) 0 [1, 2] (fun _ _ => 37) (fun _ _ => 99)
    (by intro x _ y _; ring)).1

end Matchms
